import Mathlib

/-!
Verification of the `myqupy` mypy plugin (`src/myqupy/plugin.py`).

The Python module consists of a checker registry (`FUNCTION_CHECKERS`,
a `dict[str, FunctionCheckType]`), a registration decorator
(`function_checker`), a plugin class (`QuantityPlugin`) whose
`get_function_hook` method is explicitly disabled (it returns `None`,
the registry lookup being commented out), a single registered checker
(`check_add_function`, a no-op returning the default return type), the
plugin entry point (`plugin`), and an abstract `Unit` protocol whose
operations are all left unimplemented (`raise NotImplementedError`).

The embedding below models:
  * mypy `Type` values abstractly (`Ty`),
  * the `FunctionContext` with the one field the code reads,
  * checkers as functions returning `Except` (the Python code could in
    principle raise) paired with the list of emitted diagnostics,
  * the registry as an association list with Python-`dict` semantics
    (assignment updates an existing key in place, otherwise appends;
    `dict.get(k, None)` returns the stored value or `None`),
  * the unit algebra, which the source only declares abstractly, from
    the specification's description (normalized exponent mappings).
-/

namespace Myqupy

/-- Severity of a diagnostic, as in the specification's error model. -/
inductive Severity where
  | error
  | note
  deriving DecidableEq, Repr

/-- A diagnostic report: message, source location and severity. -/
structure Diagnostic where
  message : String
  line : Nat
  severity : Severity
  deriving DecidableEq, Repr

/-- Abstract model of a mypy `Type` value. -/
inductive Ty where
  | named (fullname : String)
  deriving DecidableEq, Repr

/-- Model of `mypy.plugin.FunctionContext`: the code only ever reads
`default_return_type`; we also carry the argument types the host passes. -/
structure FunctionContext where
  arg_types : List (List Ty)
  default_return_type : Ty

/-- A checker function `Callable[[FunctionContext], Type]`.  A Python
callable may raise, so the result is wrapped in `Except`; the list
records the diagnostics the checker emits through the context's report
method as a side effect. -/
abbrev CheckerFn := FunctionContext → Except String (Ty × List Diagnostic)

/-- `FunctionCheckType = Optional[Callable[[FunctionContext], Type]]`. -/
abbrev FunctionCheckType := Option CheckerFn

/-- A Python `dict[str, FunctionCheckType]`, modelled as an association
list in insertion order. -/
abbrev Registry := List (String × FunctionCheckType)

/-- Python `d[k] = v`: replace the value of an existing key in place,
otherwise append the new binding. -/
def Registry.set (r : Registry) (k : String) (v : FunctionCheckType) : Registry :=
  match r with
  | [] => [(k, v)]
  | (k0, v0) :: rest =>
    if k0 = k then (k, v) :: rest else (k0, v0) :: Registry.set rest k v

/-- Python `d.get(k, None)`: the stored value if the key is present,
`None` otherwise.  Since the stored values are themselves optional
checkers, a key bound to `None` and an absent key both yield `none`. -/
def Registry.get (r : Registry) (k : String) : FunctionCheckType :=
  match r with
  | [] => none
  | (k0, v0) :: rest => if k0 = k then v0 else Registry.get rest k

/-- Python `k in d`. -/
def Registry.hasKey (r : Registry) (k : String) : Bool :=
  r.any (fun p => p.1 = k)

/-- The decorator `function_checker(full_name, *more_names)` applied to a
checker `f` on a registry state: stores `f` under `full_name` and under
every name in `more_names`, and returns `f` unchanged together with the
updated registry (`_register` in the source). -/
def function_checker (full_name : String) (more_names : List String)
    (f : FunctionCheckType) (reg : Registry) : Registry × FunctionCheckType :=
  let reg1 := Registry.set reg full_name f
  let reg2 := more_names.foldl (fun r name => Registry.set r name f) reg1
  (reg2, f)

/-- `check_add_function(ctx)`: returns `ctx.default_return_type`; it
raises nothing and emits no diagnostic. -/
def check_add_function (ctx : FunctionContext) : Except String (Ty × List Diagnostic) :=
  Except.ok (ctx.default_return_type, [])

/-- The module-level registry after module load: starts empty, then the
single decoration `@function_checker('list')` of `check_add_function`
runs. -/
def FUNCTION_CHECKERS : Registry :=
  (function_checker "list" [] (some check_add_function) []).1

/-- `QuantityPlugin.get_function_hook`: the body is
`return None  # FUNCTION_CHECKERS.get(fullname, None)` — the registry
lookup is commented out, so the hook always returns `None`. -/
def QuantityPlugin.get_function_hook (_fullname : String) : Option FunctionCheckType :=
  none

/-- The plugin classes a host could be handed; the module defines one. -/
inductive PluginClass where
  | QuantityPlugin
  deriving DecidableEq, Repr

/-- The entry point `plugin(_: str)`: ignores the host's version string
and returns the `QuantityPlugin` class. -/
def plugin (_version : String) : PluginClass :=
  PluginClass.QuantityPlugin

/- Registry helper lemmas. -/

theorem Registry.get_set_self (r : Registry) (k : String) (v : FunctionCheckType) :
    Registry.get (Registry.set r k v) k = v := by
  induction r with
  | nil => simp [Registry.set, Registry.get]
  | cons p rest ih =>
    obtain ⟨k0, v0⟩ := p
    by_cases h : k0 = k
    · simp [Registry.set, Registry.get, h]
    · simp [Registry.set, Registry.get, h, ih]

theorem Registry.get_set_ne (r : Registry) (k n : String) (v : FunctionCheckType)
    (hne : n ≠ k) : Registry.get (Registry.set r k v) n = Registry.get r n := by
  induction r with
  | nil =>
    simp only [Registry.set, Registry.get]
    rw [if_neg (fun h : k = n => hne h.symm)]
  | cons p rest ih =>
    obtain ⟨k0, v0⟩ := p
    by_cases h : k0 = k
    · subst h
      simp only [Registry.set, if_pos rfl, Registry.get]
      rw [if_neg (fun h2 : k0 = n => hne h2.symm), if_neg (fun h2 : k0 = n => hne h2.symm)]
    · simp only [Registry.set, if_neg h, Registry.get]
      by_cases h2 : k0 = n
      · rw [if_pos h2, if_pos h2]
      · rw [if_neg h2, if_neg h2, ih]

theorem Registry.get_foldl_set (more : List String) (f : FunctionCheckType)
    (r : Registry) (n : String) :
    Registry.get (more.foldl (fun r name => Registry.set r name f) r) n
      = if n ∈ more then f else Registry.get r n := by
  induction more generalizing r with
  | nil => simp
  | cons a more ih =>
    by_cases hmem : n ∈ more
    · simp [List.foldl_cons, ih, hmem]
    · by_cases ha : n = a
      · subst ha
        simp [List.foldl_cons, ih, hmem, Registry.get_set_self]
      · simp [List.foldl_cons, ih, hmem, ha, Registry.get_set_ne r a n f ha]

theorem Registry.hasKey_set_self (r : Registry) (k : String) (v : FunctionCheckType) :
    Registry.hasKey (Registry.set r k v) k = true := by
  induction r with
  | nil => simp [Registry.set, Registry.hasKey]
  | cons p rest ih =>
    obtain ⟨k0, v0⟩ := p
    by_cases h : k0 = k
    · simp [Registry.set, Registry.hasKey, h]
    · simp only [Registry.set, if_neg h]
      simp [Registry.hasKey, List.any_cons] at ih ⊢
      exact Or.inr ih

theorem function_checker_get_hit (reg : Registry) (full : String)
    (more : List String) (f : FunctionCheckType) (n : String)
    (h : n = full ∨ n ∈ more) :
    Registry.get (function_checker full more f reg).1 n = f := by
  unfold function_checker
  simp only [Registry.get_foldl_set]
  rcases h with h | h
  · subst h
    by_cases hmem : n ∈ more
    · simp [hmem]
    · simp [hmem, Registry.get_set_self]
  · simp [h]

theorem function_checker_get_miss (reg : Registry) (full : String)
    (more : List String) (f : FunctionCheckType) (n : String)
    (h : ¬(n = full ∨ n ∈ more)) :
    Registry.get (function_checker full more f reg).1 n = Registry.get reg n := by
  push_neg at h
  unfold function_checker
  simp only [Registry.get_foldl_set]
  simp [h.2, Registry.get_set_ne reg full n f h.1]

/-!
Unit algebra.  The source declares the `Unit` protocol (`__mul__`,
`__div__`, `__eq__`) but every method body is `raise NotImplementedError`;
the algebra itself is absent from the code, so it is modelled from the
specification.
-/

/-- Modelled from the spec: the exponent mapping of a `Unit`, a mapping
from base-dimension symbol to a signed rational exponent, kept in a
canonical form (keys strictly increasing, no zero exponents); the source
leaves the `Unit` operations unimplemented. -/
abbrev Exps := List (String × ℚ)

/-- The exponent a mapping assigns to a base-dimension symbol (missing
keys count as exponent 0). -/
def expOf : Exps → String → ℚ
  | [], _ => 0
  | (k, v) :: xs, s => if s = k then v else expOf xs s

/-- Keys are strictly increasing, so each key appears at most once. -/
abbrev keysSorted (xs : Exps) : Prop :=
  xs.Pairwise (fun p q => p.1 < q.1)

/-- Invariant from the spec: exponents are never stored as zero. -/
abbrev noZeros (xs : Exps) : Prop :=
  ∀ p ∈ xs, p.2 ≠ 0

/-- The canonical/normalized form of an exponent mapping. -/
abbrev Canonical (xs : Exps) : Prop :=
  keysSorted xs ∧ noZeros xs

/-- Modelled from the spec: entry-wise sum of two canonical exponent
mappings, dropping zero results (the normalization step of `multiply`). -/
def mergeExps : Exps → Exps → Exps
  | [], ys => ys
  | x :: xs, [] => x :: xs
  | (kx, vx) :: xs, (ky, vy) :: ys =>
    if kx < ky then (kx, vx) :: mergeExps xs ((ky, vy) :: ys)
    else if ky < kx then (ky, vy) :: mergeExps ((kx, vx) :: xs) ys
    else if vx + vy = 0 then mergeExps xs ys
    else (kx, vx + vy) :: mergeExps xs ys
termination_by xs ys => xs.length + ys.length

theorem expOf_eq_zero (xs : Exps) (s : String) (h : ∀ p ∈ xs, s < p.1) :
    expOf xs s = 0 := by
  induction xs with
  | nil => rfl
  | cons p xs ih =>
    obtain ⟨k, v⟩ := p
    have hk : s < k := h (k, v) (by simp)
    simp only [expOf]
    rw [if_neg (ne_of_lt hk)]
    exact ih (fun q hq => h q (by simp [hq]))

theorem keys_mergeExps (xs ys : Exps) :
    ∀ p ∈ mergeExps xs ys, (∃ q ∈ xs, q.1 = p.1) ∨ ∃ q ∈ ys, q.1 = p.1 := by
  induction xs, ys using mergeExps.induct with
  | case1 ys =>
    intro p hp
    simp only [mergeExps] at hp
    exact Or.inr ⟨p, hp, rfl⟩
  | case2 x xs =>
    intro p hp
    simp only [mergeExps] at hp
    exact Or.inl ⟨p, hp, rfl⟩
  | case3 kx vx xs ky vy ys hlt ih =>
    intro p hp
    simp only [mergeExps, if_pos hlt, List.mem_cons] at hp
    rcases hp with hp | hp
    · exact Or.inl ⟨(kx, vx), by simp, by rw [hp]⟩
    · rcases ih p hp with ⟨q, hq, hqk⟩ | hq
      · exact Or.inl ⟨q, by simp [hq], hqk⟩
      · exact Or.inr hq
  | case4 kx vx xs ky vy ys hlt hlt2 ih =>
    intro p hp
    simp only [mergeExps, if_neg hlt, if_pos hlt2, List.mem_cons] at hp
    rcases hp with hp | hp
    · exact Or.inr ⟨(ky, vy), by simp, by rw [hp]⟩
    · rcases ih p hp with hq | ⟨q, hq, hqk⟩
      · exact Or.inl hq
      · exact Or.inr ⟨q, by simp [hq], hqk⟩
  | case5 kx vx xs ky vy ys hlt hlt2 hv ih =>
    intro p hp
    simp only [mergeExps, if_neg hlt, if_neg hlt2, if_pos hv] at hp
    rcases ih p hp with ⟨q, hq, hqk⟩ | ⟨q, hq, hqk⟩
    · exact Or.inl ⟨q, by simp [hq], hqk⟩
    · exact Or.inr ⟨q, by simp [hq], hqk⟩
  | case6 kx vx xs ky vy ys hlt hlt2 hv ih =>
    intro p hp
    simp only [mergeExps, if_neg hlt, if_neg hlt2, if_neg hv, List.mem_cons] at hp
    rcases hp with hp | hp
    · exact Or.inl ⟨(kx, vx), by simp, by rw [hp]⟩
    · rcases ih p hp with ⟨q, hq, hqk⟩ | ⟨q, hq, hqk⟩
      · exact Or.inl ⟨q, by simp [hq], hqk⟩
      · exact Or.inr ⟨q, by simp [hq], hqk⟩

theorem expOf_cons (k : String) (v : ℚ) (xs : Exps) (s : String) :
    expOf ((k, v) :: xs) s = if s = k then v else expOf xs s := rfl

theorem expOf_mergeExps (xs ys : Exps) (s : String) :
    keysSorted xs → keysSorted ys →
    expOf (mergeExps xs ys) s = expOf xs s + expOf ys s := by
  induction xs, ys using mergeExps.induct with
  | case1 ys =>
    intro _ _
    simp [mergeExps, expOf]
  | case2 x xs =>
    intro _ _
    simp [mergeExps, expOf]
  | case3 kx vx xs ky vy ys hlt ih =>
    intro h1 h2
    have h1c := List.pairwise_cons.1 h1
    have h2c := List.pairwise_cons.1 h2
    simp only [mergeExps, if_pos hlt]
    by_cases hs : s = kx
    · have hz : expOf ((ky, vy) :: ys) s = 0 := by
        apply expOf_eq_zero
        intro p hp
        rcases List.mem_cons.1 hp with hp | hp
        · rw [hp, hs]
          exact hlt
        · rw [hs]
          exact lt_trans hlt (h2c.1 p hp)
      rw [hz, add_zero, expOf_cons kx vx (mergeExps xs ((ky, vy) :: ys)) s,
        expOf_cons kx vx xs s, if_pos hs, if_pos hs]
    · rw [expOf_cons kx vx (mergeExps xs ((ky, vy) :: ys)) s, if_neg hs,
        ih h1c.2 h2, expOf_cons kx vx xs s, if_neg hs]
  | case4 kx vx xs ky vy ys hlt hlt2 ih =>
    intro h1 h2
    have h1c := List.pairwise_cons.1 h1
    have h2c := List.pairwise_cons.1 h2
    simp only [mergeExps, if_neg hlt, if_pos hlt2]
    by_cases hs : s = ky
    · have hz : expOf ((kx, vx) :: xs) s = 0 := by
        apply expOf_eq_zero
        intro p hp
        rcases List.mem_cons.1 hp with hp | hp
        · rw [hp, hs]
          exact hlt2
        · rw [hs]
          exact lt_trans hlt2 (h1c.1 p hp)
      rw [hz, zero_add, expOf_cons ky vy (mergeExps ((kx, vx) :: xs) ys) s,
        expOf_cons ky vy ys s, if_pos hs, if_pos hs]
    · rw [expOf_cons ky vy (mergeExps ((kx, vx) :: xs) ys) s, if_neg hs,
        ih h1 h2c.2, expOf_cons ky vy ys s, if_neg hs]
  | case5 kx vx xs ky vy ys hlt hlt2 hv ih =>
    intro h1 h2
    have hk : kx = ky := le_antisymm (le_of_not_lt hlt2) (le_of_not_lt hlt)
    subst hk
    have h1c := List.pairwise_cons.1 h1
    have h2c := List.pairwise_cons.1 h2
    simp only [mergeExps, if_neg hlt, if_neg hlt2, if_pos hv]
    rw [ih h1c.2 h2c.2]
    by_cases hs : s = kx
    · have hzx : expOf xs s = 0 :=
        expOf_eq_zero xs s (fun p hp => by rw [hs]; exact h1c.1 p hp)
      have hzy : expOf ys s = 0 :=
        expOf_eq_zero ys s (fun p hp => by rw [hs]; exact h2c.1 p hp)
      rw [hzx, hzy, expOf_cons kx vx xs s, expOf_cons kx vy ys s, if_pos hs, if_pos hs,
        hv, add_zero]
    · rw [expOf_cons kx vx xs s, expOf_cons kx vy ys s, if_neg hs, if_neg hs]
  | case6 kx vx xs ky vy ys hlt hlt2 hv ih =>
    intro h1 h2
    have hk : kx = ky := le_antisymm (le_of_not_lt hlt2) (le_of_not_lt hlt)
    subst hk
    have h1c := List.pairwise_cons.1 h1
    have h2c := List.pairwise_cons.1 h2
    simp only [mergeExps, if_neg hlt, if_neg hlt2, if_neg hv]
    rw [expOf_cons kx (vx + vy) (mergeExps xs ys) s, expOf_cons kx vx xs s,
      expOf_cons kx vy ys s]
    by_cases hs : s = kx
    · rw [if_pos hs, if_pos hs, if_pos hs]
    · rw [if_neg hs, if_neg hs, if_neg hs]
      exact ih h1c.2 h2c.2

theorem keysSorted_mergeExps (xs ys : Exps) :
    keysSorted xs → keysSorted ys → keysSorted (mergeExps xs ys) := by
  induction xs, ys using mergeExps.induct with
  | case1 ys =>
    intro _ h2
    simpa [mergeExps] using h2
  | case2 x xs =>
    intro h1 _
    simpa [mergeExps] using h1
  | case3 kx vx xs ky vy ys hlt ih =>
    intro h1 h2
    simp only [keysSorted, List.pairwise_cons] at h1
    simp only [mergeExps, if_pos hlt]
    simp only [keysSorted, List.pairwise_cons]
    refine ⟨?_, ih h1.2 h2⟩
    intro p hp
    rcases keys_mergeExps xs ((ky, vy) :: ys) p hp with ⟨q, hq, hqk⟩ | ⟨q, hq, hqk⟩
    · rw [← hqk]
      exact h1.1 q hq
    · rcases List.mem_cons.1 hq with hq | hq
      · rw [← hqk, hq]
        exact hlt
      · rw [← hqk]
        exact lt_trans hlt ((List.pairwise_cons.1 h2).1 q hq)
  | case4 kx vx xs ky vy ys hlt hlt2 ih =>
    intro h1 h2
    simp only [keysSorted, List.pairwise_cons] at h2
    simp only [mergeExps, if_neg hlt, if_pos hlt2]
    simp only [keysSorted, List.pairwise_cons]
    refine ⟨?_, ih h1 h2.2⟩
    intro p hp
    rcases keys_mergeExps ((kx, vx) :: xs) ys p hp with ⟨q, hq, hqk⟩ | ⟨q, hq, hqk⟩
    · rcases List.mem_cons.1 hq with hq | hq
      · rw [← hqk, hq]
        exact hlt2
      · rw [← hqk]
        exact lt_trans hlt2 ((List.pairwise_cons.1 h1).1 q hq)
    · rw [← hqk]
      exact h2.1 q hq
  | case5 kx vx xs ky vy ys hlt hlt2 hv ih =>
    intro h1 h2
    simp only [keysSorted, List.pairwise_cons] at h1 h2
    simp only [mergeExps, if_neg hlt, if_neg hlt2, if_pos hv]
    exact ih h1.2 h2.2
  | case6 kx vx xs ky vy ys hlt hlt2 hv ih =>
    intro h1 h2
    simp only [keysSorted, List.pairwise_cons] at h1 h2
    have hk : kx = ky := le_antisymm (le_of_not_lt hlt2) (le_of_not_lt hlt)
    subst hk
    simp only [mergeExps, if_neg hlt, if_neg hlt2, if_neg hv]
    simp only [keysSorted, List.pairwise_cons]
    refine ⟨?_, ih h1.2 h2.2⟩
    intro p hp
    rcases keys_mergeExps xs ys p hp with ⟨q, hq, hqk⟩ | ⟨q, hq, hqk⟩
    · rw [← hqk]
      exact h1.1 q hq
    · rw [← hqk]
      exact h2.1 q hq

theorem noZeros_mergeExps (xs ys : Exps) :
    noZeros xs → noZeros ys → noZeros (mergeExps xs ys) := by
  induction xs, ys using mergeExps.induct with
  | case1 ys =>
    intro _ h2
    simpa [mergeExps] using h2
  | case2 x xs =>
    intro h1 _
    simpa [mergeExps] using h1
  | case3 kx vx xs ky vy ys hlt ih =>
    intro h1 h2
    simp only [mergeExps, if_pos hlt]
    intro p hp
    rcases List.mem_cons.1 hp with hp | hp
    · rw [hp]
      exact h1 (kx, vx) (by simp)
    · exact ih (fun q hq => h1 q (by simp [hq])) h2 p hp
  | case4 kx vx xs ky vy ys hlt hlt2 ih =>
    intro h1 h2
    simp only [mergeExps, if_neg hlt, if_pos hlt2]
    intro p hp
    rcases List.mem_cons.1 hp with hp | hp
    · rw [hp]
      exact h2 (ky, vy) (by simp)
    · exact ih h1 (fun q hq => h2 q (by simp [hq])) p hp
  | case5 kx vx xs ky vy ys hlt hlt2 hv ih =>
    intro h1 h2
    simp only [mergeExps, if_neg hlt, if_neg hlt2, if_pos hv]
    exact ih (fun q hq => h1 q (by simp [hq])) (fun q hq => h2 q (by simp [hq]))
  | case6 kx vx xs ky vy ys hlt hlt2 hv ih =>
    intro h1 h2
    simp only [mergeExps, if_neg hlt, if_neg hlt2, if_neg hv]
    intro p hp
    rcases List.mem_cons.1 hp with hp | hp
    · rw [hp]
      exact hv
    · exact ih (fun q hq => h1 q (by simp [hq])) (fun q hq => h2 q (by simp [hq])) p hp

theorem canonical_ext (xs : Exps) : ∀ ys : Exps, Canonical xs → Canonical ys →
    (∀ s, expOf xs s = expOf ys s) → xs = ys := by
  induction xs with
  | nil =>
    intro ys hx hy h
    cases ys with
    | nil => rfl
    | cons q ys =>
      obtain ⟨k, v⟩ := q
      exfalso
      have h0 := h k
      rw [expOf_cons k v ys k, if_pos rfl] at h0
      exact hy.2 (k, v) (by simp) h0.symm
  | cons p xs ih =>
    intro ys hx hy h
    obtain ⟨kx, vx⟩ := p
    have hxc := List.pairwise_cons.1 hx.1
    cases ys with
    | nil =>
      exfalso
      have h0 := h kx
      rw [expOf_cons kx vx xs kx, if_pos rfl] at h0
      exact hx.2 (kx, vx) (by simp) h0
    | cons q ys =>
      obtain ⟨ky, vy⟩ := q
      have hyc := List.pairwise_cons.1 hy.1
      have hk : kx = ky := by
        rcases lt_trichotomy kx ky with hlt | heq | hgt
        · exfalso
          have h0 := h kx
          rw [expOf_cons kx vx xs kx, if_pos rfl, expOf_cons ky vy ys kx,
            if_neg (ne_of_lt hlt)] at h0
          rw [expOf_eq_zero ys kx (fun p hp => lt_trans hlt (hyc.1 p hp))] at h0
          exact hx.2 (kx, vx) (by simp) h0
        · exact heq
        · exfalso
          have h0 := h ky
          rw [expOf_cons kx vx xs ky, if_neg (ne_of_lt hgt), expOf_cons ky vy ys ky,
            if_pos rfl] at h0
          rw [expOf_eq_zero xs ky (fun p hp => lt_trans hgt (hxc.1 p hp))] at h0
          exact hy.2 (ky, vy) (by simp) h0.symm
      subst hk
      have hv : vx = vy := by
        have h0 := h kx
        rw [expOf_cons kx vx xs kx, if_pos rfl, expOf_cons kx vy ys kx, if_pos rfl] at h0
        exact h0
      subst hv
      have htail : ∀ s, expOf xs s = expOf ys s := by
        intro s
        by_cases hs : s = kx
        · rw [hs, expOf_eq_zero xs kx (fun p hp => hxc.1 p hp),
            expOf_eq_zero ys kx (fun p hp => hyc.1 p hp)]
        · have h0 := h s
          rw [expOf_cons kx vx xs s, if_neg hs, expOf_cons kx vx ys s, if_neg hs] at h0
          exact h0
      rw [ih ys ⟨hxc.2, fun p hp => hx.2 p (List.mem_cons_of_mem _ hp)⟩
        ⟨hyc.2, fun p hp => hy.2 p (List.mem_cons_of_mem _ hp)⟩ htail]

/-- Modelled from the spec: a `Unit` value, an immutable physical
dimension represented by a canonical exponent mapping; the source only
declares the `Unit` protocol, all its operations raising
`NotImplementedError`. -/
structure Unit where
  exps : Exps
  canon : Canonical exps

theorem Unit.eq_of_exps_eq {a b : Unit} (h : a.exps = b.exps) : a = b := by
  cases a
  cases b
  cases h
  rfl

/-- Modelled from the spec: `multiply(a, b)` is the entry-wise sum of the
two exponent mappings, normalized by dropping zero exponents; the source
leaves `Unit.__mul__` unimplemented. -/
def Unit.multiply (a b : Unit) : Unit :=
  ⟨mergeExps a.exps b.exps,
    keysSorted_mergeExps a.exps b.exps a.canon.1 b.canon.1,
    noZeros_mergeExps a.exps b.exps a.canon.2 b.canon.2⟩

/-- Negating every exponent of a mapping. -/
def invertExps (xs : Exps) : Exps :=
  xs.map (fun p => (p.1, -p.2))

theorem keysSorted_invertExps (xs : Exps) (h : keysSorted xs) :
    keysSorted (invertExps xs) := by
  unfold invertExps keysSorted
  rw [List.pairwise_map]
  exact h

theorem noZeros_invertExps (xs : Exps) (h : noZeros xs) :
    noZeros (invertExps xs) := by
  intro p hp
  simp only [invertExps, List.mem_map] at hp
  obtain ⟨q, hq, rfl⟩ := hp
  simpa using h q hq

/-- Modelled from the spec: `invert` negates all exponents; the source
leaves the `Unit` operations unimplemented. -/
def Unit.invert (a : Unit) : Unit :=
  ⟨invertExps a.exps, keysSorted_invertExps a.exps a.canon.1,
    noZeros_invertExps a.exps a.canon.2⟩

/-- Modelled from the spec: `divide(a, b) = multiply(a, invert(b))`; the
source leaves `Unit.__div__` unimplemented. -/
def Unit.divide (a b : Unit) : Unit :=
  a.multiply b.invert

/-- The dimensionless unit: the empty exponent mapping. -/
def Unit.dimensionless : Unit :=
  ⟨[], List.Pairwise.nil, fun p hp => absurd hp (List.not_mem_nil p)⟩

theorem expOf_invertExps (xs : Exps) (s : String) :
    expOf (invertExps xs) s = - expOf xs s := by
  induction xs with
  | nil => simp [invertExps, expOf]
  | cons p xs ih =>
    obtain ⟨k, v⟩ := p
    by_cases hs : s = k
    · simp [invertExps, expOf_cons, hs]
    · simp only [invertExps, List.map_cons] at ih ⊢
      rw [expOf_cons k (-v) (xs.map fun p => (p.1, -p.2)) s, if_neg hs,
        expOf_cons k v xs s, if_neg hs, ih]

theorem expOf_multiply (a b : Unit) (s : String) :
    expOf (a.multiply b).exps s = expOf a.exps s + expOf b.exps s :=
  expOf_mergeExps a.exps b.exps s a.canon.1 b.canon.1

theorem expOf_invert (a : Unit) (s : String) :
    expOf a.invert.exps s = - expOf a.exps s :=
  expOf_invertExps a.exps s

/-- The registry literal reached after module load. -/
theorem FUNCTION_CHECKERS_val :
    FUNCTION_CHECKERS = [("list", some check_add_function)] := rfl

/-- Claim C1: `QuantityPlugin.get_function_hook` returns nothing for
every fully-qualified name — the hook is disabled and the registry
lookup is forced to always miss, even for the name `list`, which is
present in the registry. -/
theorem get_function_hook_always_none :
    (∀ fullname : String, QuantityPlugin.get_function_hook fullname = none) ∧
    Registry.get FUNCTION_CHECKERS "list" = some check_add_function :=
  ⟨fun _ => rfl, rfl⟩

/-- Claim C2: the registered checker `check_add_function` returns
`ctx.default_return_type` unchanged, raises nothing and emits no
diagnostic — the checking logic is a no-op. -/
theorem check_add_function_noop (ctx : FunctionContext) :
    check_add_function ctx = Except.ok (ctx.default_return_type, []) :=
  rfl

/-- Claim C3 fails as stated: the name `list` is registered with checker
`check_add_function` (its last and only registration), yet the plugin's
hook-lookup `get_function_hook` returns nothing for it instead of the
registered checker. -/
theorem hook_lookup_misses_registered_name :
    Registry.get FUNCTION_CHECKERS "list" = some check_add_function ∧
    QuantityPlugin.get_function_hook "list" ≠ some (some check_add_function) :=
  ⟨rfl, fun h => Option.noConfusion h⟩

/-- Claim C3 (amended): for every name a registration writes (the full
name or any alias), direct lookup in the resulting registry returns the
registered checker — over any prior registry state, so the last
registration for a name wins — while lookup of a name no registration
wrote is unchanged, and lookup in the empty registry returns nothing;
the plugin's hook-lookup operation, by contrast, returns nothing for
every name, registered or not. -/
theorem registry_lookup_vs_hook_lookup (reg : Registry) (full : String)
    (more : List String) (f : FunctionCheckType) (n : String) :
    ((n = full ∨ n ∈ more) →
      Registry.get (function_checker full more f reg).1 n = f) ∧
    (¬(n = full ∨ n ∈ more) →
      Registry.get (function_checker full more f reg).1 n = Registry.get reg n) ∧
    Registry.get [] n = none ∧
    QuantityPlugin.get_function_hook n = none :=
  ⟨function_checker_get_hit reg full more f n,
    function_checker_get_miss reg full more f n, rfl, rfl⟩

/-- Witness for the amended claim C3 at a concrete registration. -/
theorem registry_lookup_vs_hook_lookup_witness :
    Registry.get
      (function_checker "operator.add" ["numpy.add"] (some check_add_function) []).1
      "numpy.add" = some check_add_function :=
  (registry_lookup_vs_hook_lookup [] "operator.add" ["numpy.add"]
    (some check_add_function) "numpy.add").1 (Or.inr (by simp))

/-- Claim C4: applying the decorator `function_checker(full_name,
*more_names)` to a checker `f` stores `f` under `full_name` and under
every alias, overwrites any earlier registration for those names (it
holds over any prior registry state, in particular after an earlier
registration of `g` for the same names), and returns `f` unchanged. -/
theorem function_checker_registers (reg : Registry) (full : String)
    (more : List String) (f g : FunctionCheckType) :
    ((function_checker full more f reg).2 = f) ∧
    (Registry.get (function_checker full more f reg).1 full = f) ∧
    (∀ n, n ∈ more → Registry.get (function_checker full more f reg).1 n = f) ∧
    (Registry.get
      (function_checker full more f (function_checker full more g reg).1).1 full = f) :=
  ⟨rfl, function_checker_get_hit reg full more f full (Or.inl rfl),
    fun n hn => function_checker_get_hit reg full more f n (Or.inr hn),
    function_checker_get_hit (function_checker full more g reg).1 full more f full
      (Or.inl rfl)⟩

/-- Witness for claim C4 at a concrete registration with one alias. -/
theorem function_checker_registers_witness :
    Registry.get
      (function_checker "operator.add" ["operator.sub"] (some check_add_function) []).1
      "operator.sub" = some check_add_function :=
  (function_checker_registers [] "operator.add" ["operator.sub"]
    (some check_add_function) none).2.2.1 "operator.sub" (by simp)

/-- Claim C5: every checker stored in the registry returns a type value
(together with its, here empty, diagnostics) for every input context and
never raises, so it never aborts its caller. -/
theorem checkers_never_raise (n : String) (f : CheckerFn) (ctx : FunctionContext)
    (h : Registry.get FUNCTION_CHECKERS n = some f) :
    ∃ t : Ty, ∃ ds : List Diagnostic, f ctx = Except.ok (t, ds) := by
  rw [FUNCTION_CHECKERS_val] at h
  simp only [Registry.get] at h
  by_cases hn : "list" = n
  · rw [if_pos hn] at h
    have hf : some check_add_function = some f := h
    refine ⟨ctx.default_return_type, [], ?_⟩
    rw [← Option.some.inj hf]
    rfl
  · rw [if_neg hn] at h
    exact absurd h (by simp)

/-- Witness for claim C5: the registered checker for `list` applied to a
concrete context. -/
theorem checkers_never_raise_witness :
    ∃ t : Ty, ∃ ds : List Diagnostic,
      check_add_function ⟨[], Ty.named "builtins.int"⟩ = Except.ok (t, ds) :=
  checkers_never_raise "list" check_add_function ⟨[], Ty.named "builtins.int"⟩ rfl

/-- Claim C6: the entry point `plugin` returns the `QuantityPlugin`
class for every host version string, and its result does not depend on
the string. -/
theorem plugin_returns_QuantityPlugin :
    (∀ version : String, plugin version = PluginClass.QuantityPlugin) ∧
    (∀ v1 v2 : String, plugin v1 = plugin v2) :=
  ⟨fun _ => rfl, fun _ _ => rfl⟩

/-- Claim C7: unit multiplication is associative and commutative. -/
theorem multiply_assoc_comm (a b c : Unit) :
    (a.multiply b).multiply c = a.multiply (b.multiply c) ∧
    a.multiply b = b.multiply a := by
  constructor
  · apply Unit.eq_of_exps_eq
    apply canonical_ext _ _ ((a.multiply b).multiply c).canon
      (a.multiply (b.multiply c)).canon
    intro s
    simp only [expOf_multiply]
    ring
  · apply Unit.eq_of_exps_eq
    apply canonical_ext _ _ (a.multiply b).canon (b.multiply a).canon
    intro s
    simp only [expOf_multiply]
    ring

/-- Claim C8: multiplying a unit by its inverse yields the dimensionless
unit — the exponent mapping of `multiply(a, invert(a))` is empty. -/
theorem multiply_invert_dimensionless (a : Unit) :
    a.multiply a.invert = Unit.dimensionless ∧ (a.multiply a.invert).exps = [] := by
  have h : a.multiply a.invert = Unit.dimensionless := by
    apply Unit.eq_of_exps_eq
    apply canonical_ext _ _ (a.multiply a.invert).canon Unit.dimensionless.canon
    intro s
    simp only [expOf_multiply, expOf_invert]
    show expOf a.exps s + - expOf a.exps s = expOf [] s
    simp [expOf]
  refine ⟨h, ?_⟩
  rw [h]
  rfl

/-- Claim C9: after module load the registry holds exactly the single
entry mapping `list` to `check_add_function`, and lookup of any other
name — in particular any additive or multiplicative operator name —
yields nothing. -/
theorem FUNCTION_CHECKERS_single_entry :
    FUNCTION_CHECKERS = [("list", some check_add_function)] ∧
    (∀ n : String, Registry.get FUNCTION_CHECKERS n
      = if n = "list" then some check_add_function else none) := by
  refine ⟨rfl, fun n => ?_⟩
  rw [FUNCTION_CHECKERS_val]
  simp only [Registry.get]
  by_cases hn : n = "list"
  · rw [if_pos hn.symm, if_pos hn]
  · rw [if_neg (fun h => hn h.symm), if_neg hn]

/-- Claim C10: a checker value of `None` is accepted by registration —
the name then has an entry in the registry — but registry lookup for it
returns `None`, exactly as lookup in a registry where the name was never
registered, so the two cases are indistinguishable through lookup. -/
theorem none_checker_indistinguishable (reg : Registry) (n : String) :
    Registry.hasKey (function_checker n [] none reg).1 n = true ∧
    Registry.get (function_checker n [] none reg).1 n = none ∧
    Registry.get [] n = none ∧
    Registry.hasKey [] n = false := by
  refine ⟨?_, function_checker_get_hit reg n [] none n (Or.inl rfl), rfl, rfl⟩
  show Registry.hasKey (Registry.set reg n none) n = true
  exact Registry.hasKey_set_self reg n none

end Myqupy
